import Mathlib

/-!
Verification of the BTC OHLC data updater (`update_data.py`).

The program maintains a CSV table of hourly candles keyed by timestamp.
Each run loads the existing table, fetches recent candles from a chain of
provider adapters with fallback, merges them into the table (concatenate,
deduplicate by timestamp keeping the last occurrence, sort by timestamp),
and persists the result.

We embed the pure core of the program: rows are timestamp/payload pairs
(`Nat × α`, the payload left abstract since the merge never inspects it),
the merge pipeline mirrors `pd.concat` + `index.duplicated(keep='last')` +
`sort_index`, the CSV loader mirrors `get_latest_timestamp_from_csv`, the
fallback loop mirrors `fetch_recent_klines`, and the orchestrator mirrors
`update_csv`.
-/

namespace BtcDb

/-- A table row: timestamp key (as a totally ordered integer instant, the
way pandas compares datetime64 values) paired with the OHLCV payload,
which the merge logic never inspects. -/
abbrev Row (α : Type) := Nat × α

/-- Comparison of rows by timestamp, the order used by `sort_index`. -/
def keyLe {α : Type} (a b : Row α) : Prop := a.1 ≤ b.1

instance {α : Type} : DecidableRel (keyLe (α := α)) :=
  fun a b => inferInstanceAs (Decidable (a.1 ≤ b.1))

instance {α : Type} : IsTotal (Row α) keyLe :=
  ⟨fun a b => Nat.le_total a.1 b.1⟩

instance {α : Type} : IsTrans (Row α) keyLe :=
  ⟨fun _ _ _ => Nat.le_trans⟩

/-- `df[~df.index.duplicated(keep='last')]` (line 279): keep a row exactly
when its timestamp does not occur again later in the sequence, so the last
occurrence of each timestamp survives, in its original position. -/
def dedupKeepLast {α : Type} : List (Row α) → List (Row α)
  | [] => []
  | r :: rs =>
    if rs.any (fun s => s.1 == r.1) then dedupKeepLast rs
    else r :: dedupKeepLast rs

/-- The merge pipeline of `update_csv` (lines 276-282):
`pd.concat([df_existing, df_new])`, drop duplicate timestamps keeping the
last occurrence, then `sort_index()`. After deduplication the keys are
unique, so any comparison sort by key yields this insertion sort's
result. -/
def merge {α : Type} (existing incoming : List (Row α)) : List (Row α) :=
  List.insertionSort keyLe (dedupKeepLast (existing ++ incoming))

/-- Row lookup by timestamp: the first (and, in a deduplicated table, the
only) row with the given key. -/
def rowAt {α : Type} (t : Nat) (l : List (Row α)) : Option α :=
  (l.find? (fun r => r.1 == t)).map Prod.snd

/-- The value of the last row with the given timestamp, if any. -/
def lastAt {α : Type} (t : Nat) : List (Row α) → Option α
  | [] => none
  | r :: rs =>
    match lastAt t rs with
    | some v => some v
    | none => if r.1 == t then some r.2 else none

/-- The table invariant: timestamps strictly increasing along the list
(hence no duplicates). -/
def tsStrictSorted {α : Type} (l : List (Row α)) : Prop :=
  l.Pairwise (fun a b => a.1 < b.1)

/-- Timestamps of a table are pairwise distinct. -/
def keysNodup {α : Type} (l : List (Row α)) : Prop :=
  (l.map Prod.fst).Nodup

/-- The state of the CSV file as `get_latest_timestamp_from_csv` can
observe it: absent (raises `FileNotFoundError`), present but unreadable
(any other exception from `pd.read_csv`), or readable with its rows. -/
inductive CsvFile (α : Type) : Type
  | missing : CsvFile α
  | malformed : CsvFile α
  | good (rows : List (Row α)) : CsvFile α

/-- `get_latest_timestamp_from_csv` (lines 28-40): on success returns the
pair (max timestamp, table); on `FileNotFoundError` it returns
`None, None`, and on any other read error it also returns `None, None`. -/
def get_latest_timestamp_from_csv {α : Type} :
    CsvFile α → Option Nat × Option (List (Row α))
  | CsvFile.missing => (none, none)
  | CsvFile.malformed => (none, none)
  | CsvFile.good rows => ((rows.map Prod.fst).max?, some rows)

/-- One adapter's outcome as `fetch_recent_klines` sees it: `none` when
the adapter failed (returned `None`), otherwise the normalized table it
produced (possibly empty). -/
abbrev AdapterResult (α : Type) := Option (List (Row α))

/-- An adapter result is usable exactly when
`df is not None and len(df) > 0` (line 244). -/
def usable {α : Type} : AdapterResult α → Bool
  | some df => !df.isEmpty
  | none => false

/-- `fetch_recent_klines` (lines 229-249): walk the priority list of
adapter outcomes; the first usable result is returned and the loop stops.
The second component counts how many adapters were invoked. Returns
`(none, all invoked)` when every adapter is exhausted. -/
def fetch_recent_klines {α : Type} :
    List (AdapterResult α) → AdapterResult α × Nat
  | [] => (none, 0)
  | r :: rest =>
    match r with
    | some df =>
      if df.isEmpty then
        ((fetch_recent_klines rest).1, (fetch_recent_klines rest).2 + 1)
      else (some df, 1)
    | none =>
      ((fetch_recent_klines rest).1, (fetch_recent_klines rest).2 + 1)

/-- `update_csv` (lines 251-303), with the CSV state and the fallback
fetcher's overall result as inputs. Returns the boolean outcome and the
table written to the CSV file (`none` when nothing was written). Both the
`new_rows > 0` branch and the `else` branch write `df_combined` and return
`True`; `new_rows` is computed only for the report. -/
def update_csv {α : Type} (file : CsvFile α) (fetched : AdapterResult α) :
    Bool × Option (List (Row α)) :=
  match (get_latest_timestamp_from_csv file).2 with
  | none => (false, none)
  | some df_existing =>
    match fetched with
    | none => (false, none)
    | some df_new =>
      if df_new.isEmpty then (false, none)
      else
        let df_combined := merge df_existing df_new
        let new_rows : Int := (df_combined.length : Int) - (df_existing.length : Int)
        if 0 < new_rows then (true, some df_combined)
        else (true, some df_combined)

/-- Naive civil datetime, as stored in the CSV after
`tz_localize(None)`. -/
structure NaiveDT where
  year : Nat
  month : Nat
  day : Nat
  hour : Nat
  minute : Nat
  second : Nat
deriving DecidableEq, Repr

/-- Gregorian civil date from a count of days since 1970-01-01
(era-based conversion, as performed by the datetime library underlying
`pd.to_datetime`). -/
def civilFromDays (days : Nat) : Nat × Nat × Nat :=
  let z := days + 719468
  let era := z / 146097
  let doe := z % 146097
  let yoe := (doe - doe / 1460 + doe / 36524 - doe / 146096) / 365
  let y := yoe + era * 400
  let doy := doe - (365 * yoe + yoe / 4 - yoe / 100)
  let mp := (5 * doy + 2) / 153
  let d := doy - (153 * mp + 2) / 5 + 1
  let m := if mp < 10 then mp + 3 else mp - 9
  (if m ≤ 2 then y + 1 else y, m, d)

/-- Civil datetime from a count of seconds since 1970-01-01T00:00:00. -/
def civilFromSecs (s : Nat) : NaiveDT :=
  let p := civilFromDays (s / 86400)
  ⟨p.1, p.2.1, p.2.2, s % 86400 / 3600, s % 86400 % 3600 / 60, s % 86400 % 60⟩

/-- The timestamp conversion of `fetch_from_bybit` (lines 78-82):
`pd.to_datetime(ms, unit='ms', utc=True)` makes the epoch-millisecond
value an absolute UTC instant, `tz_convert('Asia/Singapore')` shifts it by
that zone's fixed modern offset of +08:00 (28800 seconds), and
`tz_localize(None)` strips the offset, leaving naive local civil time.
Provider open times are hour-aligned, so whole seconds suffice. -/
def bybitConvertTs (ms : Nat) : NaiveDT :=
  civilFromSecs (ms / 1000 + 8 * 3600)

/-! ### Basic lemmas about lookup and deduplication -/

theorem any_key_eq_true_iff {α : Type} (l : List (Row α)) (t : Nat) :
    (l.any fun s => s.1 == t) = true ↔ t ∈ l.map Prod.fst := by
  simp only [List.any_eq_true, beq_iff_eq, List.mem_map]

theorem rowAt_nil {α : Type} (t : Nat) : rowAt t ([] : List (Row α)) = none := rfl

theorem rowAt_cons {α : Type} (t : Nat) (r : Row α) (l : List (Row α)) :
    rowAt t (r :: l) = if r.1 = t then some r.2 else rowAt t l := by
  by_cases h : r.1 = t
  · simp [rowAt, List.find?_cons_of_pos, h]
  · simp [rowAt, List.find?_cons_of_neg, h]

theorem rowAt_eq_none_iff {α : Type} (t : Nat) (l : List (Row α)) :
    rowAt t l = none ↔ t ∉ l.map Prod.fst := by
  induction l with
  | nil => simp [rowAt_nil]
  | cons r rs ih =>
    rw [rowAt_cons]
    by_cases h : r.1 = t
    · simp [h]
    · simp [h, ih, Ne.symm h]

theorem lastAt_nil {α : Type} (t : Nat) : lastAt t ([] : List (Row α)) = none := rfl

theorem lastAt_cons {α : Type} (t : Nat) (r : Row α) (rs : List (Row α)) :
    lastAt t (r :: rs) =
      match lastAt t rs with
      | some v => some v
      | none => if r.1 == t then some r.2 else none := rfl

theorem lastAt_eq_none_iff {α : Type} (t : Nat) (l : List (Row α)) :
    lastAt t l = none ↔ t ∉ l.map Prod.fst := by
  induction l with
  | nil => simp [lastAt_nil]
  | cons r rs ih =>
    rw [lastAt_cons]
    cases h : lastAt t rs with
    | some v =>
      have : t ∈ rs.map Prod.fst := by
        by_contra hc
        rw [← ih] at hc
        exact absurd h (by simp [hc])
      simp [this]
    | none =>
      have hts : t ∉ rs.map Prod.fst := ih.mp h
      by_cases he : r.1 = t
      · simp [he]
      · simp [he, hts, Ne.symm he]

theorem dedupKeepLast_sublist {α : Type} (l : List (Row α)) :
    List.Sublist (dedupKeepLast l) l := by
  induction l with
  | nil => simp [dedupKeepLast]
  | cons r rs ih =>
    by_cases h : (rs.any fun s => s.1 == r.1) = true
    · rw [dedupKeepLast, if_pos h]
      exact ih.cons r
    · rw [dedupKeepLast, if_neg h]
      exact ih.cons₂ r

theorem dedupKeepLast_keysNodup {α : Type} (l : List (Row α)) :
    keysNodup (dedupKeepLast l) := by
  induction l with
  | nil => simp [dedupKeepLast, keysNodup]
  | cons r rs ih =>
    by_cases h : (rs.any fun s => s.1 == r.1) = true
    · rw [dedupKeepLast, if_pos h]
      exact ih
    · rw [dedupKeepLast, if_neg h]
      have hnot : r.1 ∉ rs.map Prod.fst := fun hm =>
        h ((any_key_eq_true_iff rs r.1).mpr hm)
      have hnot2 : r.1 ∉ (dedupKeepLast rs).map Prod.fst := fun hm =>
        hnot (((dedupKeepLast_sublist rs).map Prod.fst).subset hm)
      rw [keysNodup, List.map_cons, List.nodup_cons]
      exact ⟨hnot2, ih⟩

theorem rowAt_dedupKeepLast {α : Type} (t : Nat) (l : List (Row α)) :
    rowAt t (dedupKeepLast l) = lastAt t l := by
  induction l with
  | nil => rfl
  | cons r rs ih =>
    by_cases h : (rs.any fun s => s.1 == r.1) = true
    · rw [dedupKeepLast, if_pos h, ih, lastAt_cons]
      cases hl : lastAt t rs with
      | some v => rfl
      | none =>
        have hts : t ∉ rs.map Prod.fst := (lastAt_eq_none_iff t rs).mp hl
        have hr : r.1 ∈ rs.map Prod.fst := (any_key_eq_true_iff rs r.1).mp h
        have hne : ¬(r.1 == t) = true := by
          simp only [beq_iff_eq]
          intro he
          exact hts (he ▸ hr)
        simp [hne]
    · rw [dedupKeepLast, if_neg h, rowAt_cons, lastAt_cons]
      have hnot : r.1 ∉ rs.map Prod.fst := fun hm =>
        h ((any_key_eq_true_iff rs r.1).mpr hm)
      by_cases he : r.1 = t
      · have hl : lastAt t rs = none := (lastAt_eq_none_iff t rs).mpr (he ▸ hnot)
        simp [he, hl, ih]
      · cases hl : lastAt t rs with
        | some v => simp [he, ih, hl]
        | none => simp [he, ih, hl]

/-! ### Lookup under uniqueness, permutation, and concatenation -/

theorem rowAt_eq_some_iff {α : Type} {l : List (Row α)} (h : keysNodup l)
    (t : Nat) (v : α) : rowAt t l = some v ↔ (t, v) ∈ l := by
  induction l with
  | nil => simp [rowAt_nil]
  | cons r rs ih =>
    rw [keysNodup, List.map_cons, List.nodup_cons] at h
    rw [rowAt_cons]
    by_cases he : r.1 = t
    · have hnot : (t, v) ∉ rs := fun hm =>
        h.1 (he ▸ List.mem_map_of_mem Prod.fst hm)
      subst he
      constructor
      · intro hv
        rw [if_pos rfl, Option.some_inj] at hv
        subst hv
        exact List.mem_cons_self r rs
      · intro hm
        rcases List.mem_cons.mp hm with heq | hmem
        · have h2 : v = r.2 := congrArg Prod.snd heq
          rw [if_pos rfl, h2]
        · exact absurd hmem hnot
    · rw [if_neg he, ih h.2]
      constructor
      · exact fun hm => List.mem_cons_of_mem r hm
      · intro hm
        rcases List.mem_cons.mp hm with heq | hmem
        · exact absurd (congrArg Prod.fst heq).symm he
        · exact hmem

theorem keysNodup_of_perm {α : Type} {l l₂ : List (Row α)} (p : l.Perm l₂)
    (h : keysNodup l) : keysNodup l₂ :=
  (p.map Prod.fst).nodup_iff.mp h

theorem rowAt_of_perm {α : Type} {l l₂ : List (Row α)} (p : l.Perm l₂)
    (h : keysNodup l) (t : Nat) : rowAt t l = rowAt t l₂ := by
  have h₂ : keysNodup l₂ := keysNodup_of_perm p h
  cases hv : rowAt t l with
  | some v =>
    exact ((rowAt_eq_some_iff h₂ t v).mpr
      (p.mem_iff.mp ((rowAt_eq_some_iff h t v).mp hv))).symm
  | none =>
    have hm : t ∉ l.map Prod.fst := (rowAt_eq_none_iff t l).mp hv
    have hm₂ : t ∉ l₂.map Prod.fst := fun hc =>
      hm ((p.map Prod.fst).mem_iff.mpr hc)
    exact ((rowAt_eq_none_iff t l₂).mpr hm₂).symm

theorem lastAt_append_of_some {α : Type} {t : Nat} {l₂ : List (Row α)} {v : α}
    (l₁ : List (Row α)) (h : lastAt t l₂ = some v) :
    lastAt t (l₁ ++ l₂) = some v := by
  induction l₁ with
  | nil => simpa
  | cons r rs ih => rw [List.cons_append, lastAt_cons, ih]

theorem lastAt_append_of_none {α : Type} {t : Nat} {l₂ : List (Row α)}
    (l₁ : List (Row α)) (h : lastAt t l₂ = none) :
    lastAt t (l₁ ++ l₂) = lastAt t l₁ := by
  induction l₁ with
  | nil => simpa
  | cons r rs ih => rw [List.cons_append, lastAt_cons, ih, lastAt_cons]

theorem lastAt_eq_rowAt {α : Type} {l : List (Row α)} (h : keysNodup l)
    (t : Nat) : lastAt t l = rowAt t l := by
  induction l with
  | nil => rfl
  | cons r rs ih =>
    rw [keysNodup, List.map_cons, List.nodup_cons] at h
    rw [lastAt_cons, rowAt_cons]
    by_cases he : r.1 = t
    · have hl : lastAt t rs = none :=
        (lastAt_eq_none_iff t rs).mpr (he ▸ h.1)
      simp [hl, he]
    · rw [ih h.2]
      cases hv : rowAt t rs with
      | some v => simp [he]
      | none => simp [he]

/-! ### The merged table: lookup characterization and sortedness -/

theorem rowAt_merge {α : Type} (e i : List (Row α)) (t : Nat) :
    rowAt t (merge e i) = lastAt t (e ++ i) := by
  have hperm := List.perm_insertionSort keyLe (dedupKeepLast (e ++ i))
  have hnd := dedupKeepLast_keysNodup (e ++ i)
  rw [merge, ← rowAt_of_perm hperm.symm hnd t, rowAt_dedupKeepLast]

theorem merge_keysNodup {α : Type} (e i : List (Row α)) :
    keysNodup (merge e i) :=
  keysNodup_of_perm (List.perm_insertionSort keyLe _).symm
    (dedupKeepLast_keysNodup (e ++ i))

theorem strictSorted_of_sorted_keysNodup {α : Type} {l : List (Row α)}
    (hs : List.Sorted keyLe l) (hn : keysNodup l) : tsStrictSorted l := by
  induction l with
  | nil => exact List.Pairwise.nil
  | cons r rs ih =>
    rw [List.sorted_cons] at hs
    rw [keysNodup, List.map_cons, List.nodup_cons] at hn
    refine List.Pairwise.cons (fun b hb => ?_) (ih hs.2 hn.2)
    exact lt_of_le_of_ne (hs.1 b hb)
      (fun heq => hn.1 (heq ▸ List.mem_map_of_mem Prod.fst hb))

theorem merge_strictSorted {α : Type} (e i : List (Row α)) :
    tsStrictSorted (merge e i) :=
  strictSorted_of_sorted_keysNodup
    (List.sorted_insertionSort keyLe (dedupKeepLast (e ++ i)))
    (merge_keysNodup e i)

theorem tsStrictSorted_keysNodup {α : Type} {l : List (Row α)}
    (h : tsStrictSorted l) : keysNodup l := by
  rw [keysNodup, List.Nodup, List.pairwise_map]
  exact h.imp Nat.ne_of_lt

theorem dedupKeepLast_eq_self {α : Type} {l : List (Row α)}
    (h : keysNodup l) : dedupKeepLast l = l := by
  induction l with
  | nil => rfl
  | cons r rs ih =>
    rw [keysNodup, List.map_cons, List.nodup_cons] at h
    have hfalse : ¬(rs.any fun s => s.1 == r.1) = true := fun hc =>
      h.1 ((any_key_eq_true_iff rs r.1).mp hc)
    rw [dedupKeepLast, if_neg hfalse, ih h.2]

theorem tsStrictSorted_sorted_keyLe {α : Type} {l : List (Row α)}
    (h : tsStrictSorted l) : List.Sorted keyLe l :=
  List.Pairwise.imp (fun hab => Nat.le_of_lt hab) h

theorem not_mem_keys_of_lt_head {α : Type} {b : Row α} {l : List (Row α)}
    (h : tsStrictSorted (b :: l)) {t : Nat} (ht : t < b.1) :
    t ∉ (b :: l).map Prod.fst := by
  rw [List.map_cons, List.mem_cons]
  rintro (he | hm)
  · exact absurd he (Nat.ne_of_lt ht)
  · rcases List.mem_map.mp hm with ⟨x, hx, hfx⟩
    have hbx : b.1 < x.1 := (List.pairwise_cons.mp h).1 x hx
    rw [hfx] at hbx
    exact absurd (Nat.lt_trans ht hbx) (Nat.lt_irrefl t)

theorem head_key_not_mem_tail {α : Type} {a : Row α} {l : List (Row α)}
    (h : tsStrictSorted (a :: l)) : a.1 ∉ l.map Prod.fst := by
  intro hm
  rcases List.mem_map.mp hm with ⟨x, hx, hfx⟩
  have hlt : a.1 < x.1 := (List.pairwise_cons.mp h).1 x hx
  rw [hfx] at hlt
  exact Nat.lt_irrefl _ hlt

/-- Two tables satisfying the strict sort invariant and agreeing on every
timestamp lookup are equal. -/
theorem tsStrictSorted_ext {α : Type} :
    ∀ {l₁ l₂ : List (Row α)}, tsStrictSorted l₁ → tsStrictSorted l₂ →
      (∀ t, rowAt t l₁ = rowAt t l₂) → l₁ = l₂
  | [], [], _, _, _ => rfl
  | [], b :: l₂, _, _, hr => by
    have h1 := hr b.1
    rw [rowAt_nil, rowAt_cons, if_pos rfl] at h1
    exact absurd h1 (by simp)
  | a :: l₁, [], _, _, hr => by
    have h1 := hr a.1
    rw [rowAt_nil, rowAt_cons, if_pos rfl] at h1
    exact absurd h1 (by simp)
  | a :: l₁, b :: l₂, h₁, h₂, hr => by
    have hab : a = b := by
      rcases Nat.lt_trichotomy a.1 b.1 with hlt | heq | hgt
      · have h1 := hr a.1
        have hnone : rowAt a.1 (b :: l₂) = none :=
          (rowAt_eq_none_iff _ _).mpr (not_mem_keys_of_lt_head h₂ hlt)
        rw [hnone, rowAt_cons, if_pos rfl] at h1
        exact absurd h1 (by simp)
      · have h1 := hr a.1
        rw [rowAt_cons, if_pos rfl, rowAt_cons, if_pos heq.symm] at h1
        exact Prod.ext heq (Option.some_inj.mp h1)
      · have h1 := hr b.1
        have hnone : rowAt b.1 (a :: l₁) = none :=
          (rowAt_eq_none_iff _ _).mpr (not_mem_keys_of_lt_head h₁ hgt)
        rw [hnone, rowAt_cons, if_pos rfl] at h1
        exact absurd h1 (by simp)
    have htail : ∀ t, rowAt t l₁ = rowAt t l₂ := by
      intro t
      by_cases ht : t = a.1
      · subst ht
        have hn₁ : rowAt a.1 l₁ = none :=
          (rowAt_eq_none_iff _ _).mpr (head_key_not_mem_tail h₁)
        have hn₂ : rowAt a.1 l₂ = none :=
          (rowAt_eq_none_iff _ _).mpr (hab ▸ head_key_not_mem_tail h₂)
        rw [hn₁, hn₂]
      · have h1 := hr t
        rw [rowAt_cons, if_neg (fun hc => ht hc.symm)] at h1
        rw [rowAt_cons, ← hab, if_neg (fun hc => ht hc.symm)] at h1
        exact h1
    have htails : l₁ = l₂ :=
      tsStrictSorted_ext (List.pairwise_cons.mp h₁).2
        (List.pairwise_cons.mp h₂).2 htail
    rw [hab, htails]

instance {α : Type} : DecidableRel (fun (a b : Row α) => a.1 < b.1) :=
  fun a b => inferInstanceAs (Decidable (a.1 < b.1))

instance {α : Type} (l : List (Row α)) : Decidable (keysNodup l) :=
  inferInstanceAs (Decidable ((l.map Prod.fst).Nodup))

instance {α : Type} (l : List (Row α)) : Decidable (tsStrictSorted l) :=
  inferInstanceAs (Decidable (l.Pairwise (fun (a b : Row α) => a.1 < b.1)))

/-! ### The claims -/

/-- C1. Keep-last merge correctness: for a timestamp present in both the
existing table and the incoming sequence, the merged table's row at that
timestamp equals the incoming row — the later occurrence in
`existing ++ incoming` wins — never the existing row. -/
theorem merge_keep_last_correct {α : Type} (existing incoming : List (Row α))
    (t : Nat) (r : α) (hnd : keysNodup incoming) (hin : (t, r) ∈ incoming)
    (_hex : t ∈ existing.map Prod.fst) :
    rowAt t (merge existing incoming) = some r := by
  have hlast : lastAt t incoming = some r := by
    rw [lastAt_eq_rowAt hnd]
    exact (rowAt_eq_some_iff hnd t r).mpr hin
  rw [rowAt_merge]
  exact lastAt_append_of_some existing hlast

/-- Witness for C1: timestamp 2 is stored as 20 in the existing table and
fetched as 99; the merged table holds 99 at timestamp 2. -/
theorem merge_keep_last_correct_witness :
    rowAt 2 (merge [((1 : Nat), (10 : Nat)), (2, 20)] [(2, 99), (3, 30)])
      = some 99 :=
  merge_keep_last_correct [(1, 10), (2, 20)] [(2, 99), (3, 30)] 2 99
    (by decide) (by decide) (by decide)

/-- C2. Merge idempotence: merging the same incoming sequence twice in a
row yields the same table as merging it once. -/
theorem merge_idempotent {α : Type} (existing incoming : List (Row α)) :
    merge (merge existing incoming) incoming = merge existing incoming := by
  refine tsStrictSorted_ext (merge_strictSorted _ _) (merge_strictSorted _ _)
    (fun t => ?_)
  rw [rowAt_merge]
  cases h : lastAt t incoming with
  | some v =>
    rw [lastAt_append_of_some _ h, rowAt_merge,
      lastAt_append_of_some existing h]
  | none =>
    rw [lastAt_append_of_none _ h,
      lastAt_eq_rowAt (merge_keysNodup existing incoming)]

/-- C3. Sort invariant of the merge result: for every existing table and
incoming sequence, the merged table's timestamps are strictly increasing
at every adjacent pair, with no duplicates, regardless of input order. -/
theorem merge_sort_invariant {α : Type} (existing incoming : List (Row α)) :
    tsStrictSorted (merge existing incoming) :=
  merge_strictSorted existing incoming

/-- C6. Empty-incoming no-op: merging an empty incoming sequence into a
table satisfying the invariant returns the table unchanged. -/
theorem merge_empty_incoming_noop {α : Type} (existing : List (Row α))
    (h : tsStrictSorted existing) : merge existing [] = existing := by
  rw [merge, List.append_nil,
    dedupKeepLast_eq_self (tsStrictSorted_keysNodup h)]
  exact List.Sorted.insertionSort_eq (tsStrictSorted_sorted_keyLe h)

/-- Witness for C6: a three-row table is returned unchanged. -/
theorem merge_empty_incoming_noop_witness :
    merge [((1 : Nat), (10 : Nat)), (2, 20), (5, 50)] []
      = [(1, 10), (2, 20), (5, 50)] :=
  merge_empty_incoming_noop [(1, 10), (2, 20), (5, 50)] (by decide)

theorem fetch_recent_klines_cons_usable {α : Type} {r : AdapterResult α}
    (h : usable r = true) (rest : List (AdapterResult α)) :
    fetch_recent_klines (r :: rest) = (r, 1) := by
  cases r with
  | none => simp [usable] at h
  | some df =>
    have he : ¬df.isEmpty = true := by simpa [usable] using h
    simp [fetch_recent_klines, he]

theorem fetch_recent_klines_cons_unusable {α : Type} {r : AdapterResult α}
    (h : usable r = false) (rest : List (AdapterResult α)) :
    fetch_recent_klines (r :: rest)
      = ((fetch_recent_klines rest).1, (fetch_recent_klines rest).2 + 1) := by
  cases r with
  | none => rfl
  | some df =>
    have he : df.isEmpty = true := by simpa [usable] using h
    simp [fetch_recent_klines, he]

/-- C4. Fallback order: the fallback fetcher tries the three adapters in
priority order. If the first result is usable it is returned after one
invocation (the second and third adapters are never invoked); if the first
two fail (error or empty) a usable third result is returned after all
three invocations; if all three are exhausted the fetch yields no result
(the run's `AllProvidersFailed`). -/
theorem fetch_fallback_order {α : Type} (a b c : AdapterResult α) :
    (usable a = true → fetch_recent_klines [a, b, c] = (a, 1))
    ∧ (usable a = false → usable b = false → usable c = true →
        fetch_recent_klines [a, b, c] = (c, 3))
    ∧ (usable a = false → usable b = false → usable c = false →
        fetch_recent_klines [a, b, c] = (none, 3)) := by
  refine ⟨fun ha => fetch_recent_klines_cons_usable ha _,
    fun ha hb hc => ?_, fun ha hb hc => ?_⟩
  · rw [fetch_recent_klines_cons_unusable ha,
      fetch_recent_klines_cons_unusable hb,
      fetch_recent_klines_cons_usable hc]
  · rw [fetch_recent_klines_cons_unusable ha,
      fetch_recent_klines_cons_unusable hb,
      fetch_recent_klines_cons_unusable hc]
    rfl

/-- Witness for C4: a usable first adapter stops the chain after one
invocation; two failures followed by a usable third adapter take three
invocations and return the third result; three failures return nothing
after three invocations. -/
theorem fetch_fallback_order_witness :
    fetch_recent_klines [some [((1 : Nat), (2 : Nat))], some [(3, 4)], none]
        = (some [(1, 2)], 1)
    ∧ fetch_recent_klines [(none : AdapterResult Nat), some [], some [(3, 4)]]
        = (some [(3, 4)], 3)
    ∧ fetch_recent_klines [(none : AdapterResult Nat), some [], none]
        = (none, 3) :=
  ⟨(fetch_fallback_order _ _ _).1 (by decide),
   (fetch_fallback_order _ _ _).2.1 (by decide) (by decide) (by decide),
   (fetch_fallback_order _ _ _).2.2 (by decide) (by decide) (by decide)⟩

/-- C5. The orchestrator always persists after a successful load and
fetch, even when zero (or negative) new rows were added, and reports
success in both branches: `new_rows = len(result) − len(existing)` is
computed only for the report, and both the `new_rows > 0` branch and the
`else` branch write the merged table and return `True`. -/
theorem update_csv_always_persists {α : Type} (existing incoming : List (Row α))
    (h : incoming ≠ []) :
    update_csv (CsvFile.good existing) (some incoming)
      = (true, some (merge existing incoming)) := by
  have he : ¬incoming.isEmpty = true := by
    simpa [List.isEmpty_iff] using h
  simp [update_csv, get_latest_timestamp_from_csv, he]

/-- Witness for C5: the fetched row overwrites the only stored row, so
zero new rows are added, yet the run persists the merged table and
reports success. -/
theorem update_csv_always_persists_witness :
    update_csv (CsvFile.good [((1 : Nat), (10 : Nat))]) (some [(1, 99)])
      = (true, some (merge [(1, 10)] [(1, 99)])) :=
  update_csv_always_persists [(1, 10)] [(1, 99)] (by decide)

/-- C8 counterexample: the claim says the "no existing table" and "table
exists but unreadable" failures are distinguishable in the value returned
to the orchestrator; in the code both the `FileNotFoundError` handler and
the generic exception handler return the same `None, None`, so the
returned values are equal, not distinct. -/
theorem load_failures_return_equal_values :
    get_latest_timestamp_from_csv (CsvFile.missing : CsvFile Nat)
      = get_latest_timestamp_from_csv (CsvFile.malformed : CsvFile Nat) := rfl

/-- C8 amended: `get_latest_timestamp_from_csv` fails for both a missing
and a malformed CSV, but with the identical returned value `(None, None)`
— the two causes are distinguished only in the log text — and the
orchestrator hard-stops (no fetch result is consumed, nothing is written)
in both cases alike. -/
theorem load_failure_both_none {α : Type} (fetched : AdapterResult α) :
    get_latest_timestamp_from_csv (CsvFile.missing : CsvFile α) = (none, none)
    ∧ get_latest_timestamp_from_csv (CsvFile.malformed : CsvFile α) = (none, none)
    ∧ update_csv CsvFile.missing fetched = (false, none)
    ∧ update_csv CsvFile.malformed fetched = (false, none) :=
  ⟨rfl, rfl, rfl, rfl⟩

/-- C9. Timestamp conversion: the adapter converts the provider's epoch
value to an absolute instant and then to naive local civil time at the
fixed UTC+8 offset. The epoch-millisecond input for 2024-01-01T00:00:00Z
converts exactly to naive local 2024-01-01 08:00:00, and every
hour-aligned provider open time converts with zero minutes and seconds
(no rounding beyond the hour unit). -/
theorem bybit_timestamp_conversion :
    bybitConvertTs 1704067200000 = ⟨2024, 1, 1, 8, 0, 0⟩
    ∧ ∀ k : Nat, (bybitConvertTs (3600000 * k)).minute = 0
        ∧ (bybitConvertTs (3600000 * k)).second = 0 := by
  refine ⟨by decide, fun k => ⟨?_, ?_⟩⟩
  · show (3600000 * k / 1000 + 8 * 3600) % 86400 % 3600 / 60 = 0
    omega
  · show (3600000 * k / 1000 + 8 * 3600) % 86400 % 60 = 0
    omega

/-- C10. Merge repairs a corrupted existing table: the keep-last
deduplication also collapses duplicate timestamps occurring entirely
within `existing` to their last occurrence, the merged table always
satisfies the strictly-increasing-unique-timestamp invariant, and — as the
concrete conjuncts show on an existing table with three rows sharing one
timestamp — `len(result) − len(existing)` can be negative while the run
still persists the result and reports success. -/
theorem merge_repairs_corrupt_existing {α : Type}
    (existing incoming : List (Row α)) (t : Nat) :
    tsStrictSorted (merge existing incoming)
    ∧ (t ∉ incoming.map Prod.fst →
        rowAt t (merge existing incoming) = lastAt t existing)
    ∧ (merge [((1 : Nat), (0 : Nat)), (1, 1), (1, 2)] [(2, 5)]).length
        < [((1 : Nat), (0 : Nat)), (1, 1), (1, 2)].length
    ∧ update_csv (CsvFile.good [((1 : Nat), (0 : Nat)), (1, 1), (1, 2)])
        (some [(2, 5)])
        = (true, some (merge [((1 : Nat), (0 : Nat)), (1, 1), (1, 2)] [(2, 5)])) := by
  refine ⟨merge_strictSorted existing incoming, fun hnot => ?_, by decide, by decide⟩
  rw [rowAt_merge,
    lastAt_append_of_none existing ((lastAt_eq_none_iff t incoming).mpr hnot)]

/-- Witness for C10: timestamp 1 occurs three times in the corrupted
existing table and not in the incoming rows; the merged table holds its
last stored value, is strictly sorted, and is one row shorter than the
existing table, yet the run persists it and reports success. -/
theorem merge_repairs_corrupt_existing_witness :
    tsStrictSorted (merge [((1 : Nat), (0 : Nat)), (1, 1), (1, 2)] [(2, 5)])
    ∧ rowAt 1 (merge [((1 : Nat), (0 : Nat)), (1, 1), (1, 2)] [(2, 5)])
        = lastAt 1 [((1 : Nat), (0 : Nat)), (1, 1), (1, 2)]
    ∧ (merge [((1 : Nat), (0 : Nat)), (1, 1), (1, 2)] [(2, 5)]).length
        < [((1 : Nat), (0 : Nat)), (1, 1), (1, 2)].length
    ∧ update_csv (CsvFile.good [((1 : Nat), (0 : Nat)), (1, 1), (1, 2)])
        (some [(2, 5)])
        = (true, some (merge [((1 : Nat), (0 : Nat)), (1, 1), (1, 2)] [(2, 5)])) := by
  have h := merge_repairs_corrupt_existing
    [((1 : Nat), (0 : Nat)), (1, 1), (1, 2)] [(2, 5)] 1
  exact ⟨h.1, h.2.1 (by decide), h.2.2.1, h.2.2.2⟩

end BtcDb
